import Mathlib

/-!
Verification of the search-query compiler and result projector of the
Flashpoint database API (`searchHandler` and its helpers in the Go source).
The Go code is shallowly embedded: pure fragments become Lean functions,
the HTTP request is a record of query-parameter accessors, and the SQL
engine is an oracle function supplied as an argument.  Go `int` is modelled
as `Int` (a parsed `limit` large enough to overflow 64 bits is returned by
`strconv.Atoi` together with an error, and the handler ignores errored
parses, so overflow is irrelevant on the handler's paths).  Go
`strings.ToLower` is modelled by ASCII folding (`goToLower`); the values
the claims touch are ASCII.
-/

namespace FPDB

/-! ## Models of the Go standard-library helpers used by the handler -/

/-- Model of Go `strings.Split` for a one-character separator: scan left to
right, cut at each occurrence.  `strings.Split("", sep) = [""]`, matching
the `[[]]` base case. -/
def splitOn1 (x : Char) : List Char → List (List Char)
  | [] => [[]]
  | a :: rest =>
    if a = x then [] :: splitOn1 x rest
    else
      match splitOn1 x rest with
      | [] => [[a]]
      | h :: t => (a :: h) :: t

/-- Model of Go `strings.Split` for a two-character separator: cut at each
non-overlapping occurrence, scanning left to right. -/
def splitOn2 (x y : Char) : List Char → List (List Char)
  | [] => [[]]
  | [a] => [[a]]
  | a :: b :: rest =>
    if a = x ∧ b = y then [] :: splitOn2 x y rest
    else
      match splitOn2 x y (b :: rest) with
      | [] => [[a]]
      | h :: t => (a :: h) :: t

/-- Model of Go `strings.Split` on `String`.  The handler only ever splits
on `","` and `"; "`, so one- and two-character separators suffice (any
other separator is never reached and falls back to the unsplit string). -/
def goSplit (s sep : String) : List String :=
  match sep.data with
  | [x] => (splitOn1 x s.data).map (fun l => ⟨l⟩)
  | [x, y] => (splitOn2 x y s.data).map (fun l => ⟨l⟩)
  | _ => [s]

/-- Model of Go `strings.ToLower` (ASCII folding; the handler compares tag
names and the literals `"true"`). -/
def goToLower (s : String) : String :=
  ⟨s.data.map Char.toLower⟩

/-- Model of Go `strings.ReplaceAll(s, old, new)` for a nonempty `old`,
which Go documents as `strings.Join(strings.Split(s, old), new)`. -/
def goReplaceAll (s pat rep : String) : String :=
  String.intercalate rep (goSplit s pat)

/-- Model of Go `slices.Index`, returning `none` where Go returns `-1`. -/
def goIndex {α : Type} [DecidableEq α] : List α → α → Option Nat
  | [], _ => none
  | a :: rest, x => if a = x then some 0 else (goIndex rest x).map (· + 1)

/-- The signed 64-bit range check of Go `strconv.ParseInt(s, 10, 64)`: a
value outside `[-2^63, 2^63-1]` is `ErrRange`, and the handler's
`err == nil` test then discards the parse. -/
def int64InRange (n : Int) : Option Int :=
  if -9223372036854775808 ≤ n ∧ n ≤ 9223372036854775807 then some n else none

/-- Model of Go `strconv.Atoi` (`ParseInt(s, 10, 64)` on 64-bit
platforms): an optional sign followed by at least one decimal digit, with
the signed value inside the 64-bit range; anything else — an empty or
non-numeric string, or a value out of range (Go's `ErrRange`) — is a
parse error (`none`). -/
def goAtoi (s : String) : Option Int :=
  let core : List Char → Option Int := fun ds =>
    if ds ≠ [] ∧ ds.all Char.isDigit then
      some ((ds.foldl (fun acc c => acc * 10 + (c.toNat - Char.toNat '0')) 0 : Nat) : Int)
    else none
  match s.data with
  | '-' :: rest => (core rest).bind (fun n => int64InRange (-n))
  | '+' :: rest => (core rest).bind int64InRange
  | l => (core l).bind int64InRange

/-- Escaping of one character under the replacer
`strings.NewReplacer("^", "^^", "%", "^%", "_", "^_")`: each of the three
single-character patterns is prefixed with the escape character `^`. -/
def escChar (c : Char) : List Char :=
  if c = '^' ∨ c = '%' ∨ c = '_' then ['^', c] else [c]

/-- Model of `queryReplacer.Replace`: the three patterns are single
characters, so the replacer rewrites the string character by character. -/
def queryReplace (s : String) : String :=
  ⟨(s.data.map escChar).flatten⟩

/-- The wrapped, escaped filter value `"%" + queryReplacer.Replace(v) + "%"`
appended to `whereVal` for every literal sub-value. -/
def escapeWrap (v : String) : String :=
  "%" ++ queryReplace v ++ "%"

/-! ## Data model: field registry and request -/

/-- The struct-of-arrays field registry built in `main` from
`config.MetadataFields` (one parallel slice per descriptor attribute). -/
structure FieldIterator where
  Name : List String
  ColumnName : List String
  Query : List String
  DataTable : List Bool
  Typ : List String

/-- The query-parameter view of an HTTP request: Go's `urlQuery.Get` (empty
string when the key is absent) and `urlQuery.Has`. -/
structure URLQuery where
  get : String → String
  has : String → Bool

/-- Modelled from the spec: the deployed `config.json` field registry is not
part of the repository's source files, so a concrete registry is
reconstructed from the spec's field catalogue (names, filter columns, the
five descriptive fields at indices 2–6, the `tags` array field, a
`game_data`-joined `bool` field).  Used only to instantiate generic
theorems. -/
def specFields : FieldIterator where
  Name := ["id", "library", "title", "alternateTitles", "series", "developer",
    "publisher", "source", "tags", "zipped"]
  ColumnName := ["id", "library", "title", "alternateTitles", "series", "developer",
    "publisher", "source", "tagsStr", "activeDataOnDisk"]
  Query := ["game.id", "game.library", "game.title", "game.alternateTitles",
    "game.series", "game.developer", "game.publisher", "game.source",
    "game.tagsStr", "CASE WHEN activeDataId ISNULL THEN 0 ELSE 1 END AS activeDataOnDisk"]
  DataTable := [false, false, false, false, false, false, false, false, false, true]
  Typ := ["string", "string", "string", "string", "string", "string",
    "string", "string", "array", "bool"]

/-- `tagsIndex = slices.Index(fieldIterator.Name, "tags")`, resolved once at
startup.  Go stores `-1` when no field is named `tags`; the spec calls that
a configuration error, and the embedding defaults to `0` in that case (the
theorems that depend on the tags field assume it is registered). -/
def tagsIndex (fi : FieldIterator) : Nat :=
  (goIndex fi.Name "tags").getD 0

/-! ## Predicate compiler (`searchHandler`, query-construction half) -/

/-- The combination mode: `" OR "` when `any=true` (case-insensitively),
`" AND "` otherwise. -/
def operatorOf (q : URLQuery) : String :=
  if goToLower (q.get "any") = "true" then " OR " else " AND "

/-- One emitted LIKE predicate,
`fmt.Sprintf("%s LIKE $%d ESCAPE '^'", column, param)`. -/
def likeFmt (column : String) (param : Nat) : String :=
  column ++ " LIKE $" ++ toString param ++ " ESCAPE '^'"

/-- The fixed index set `[]int{2, 3, 4, 5, 6}` of the smart-search fields. -/
def smartIdxs : List Nat := [2, 3, 4, 5, 6]

/-- The accumulator threaded through the two WHERE-building loops:
`(whereLike, whereVal, outputQueries, param)`. -/
abbrev WhereAcc := List String × List String × List String × Nat

/-- The `smartSearch` loop: every term contributes one parenthesised
OR-group of LIKE predicates over `fieldIterator.Name[i]` for `i` in
`smartIdxs` (all sharing one parameter number), appends the term's wrapped
value to `whereVal`, appends `fieldIterator.Query[i]` for each smart index
to `outputQueries`, and advances `param` by one. -/
def smartLoop (fi : FieldIterator) : List String → WhereAcc → WhereAcc
  | [], acc => acc
  | v :: rest, (whereLike, whereVal, outputQueries, param) =>
    let smartLike := smartIdxs.map (fun i => likeFmt (fi.Name.getD i "") param)
    smartLoop fi rest
      (whereLike ++ ["(" ++ String.intercalate " OR " smartLike ++ ")"],
       whereVal ++ [escapeWrap v],
       outputQueries ++ smartIdxs.map (fun i => fi.Query.getD i ""),
       param + 1)

/-- The registry rows `(Name[i], ColumnName[i], Query[i])` iterated by the
per-field loop (`for i, c := range fieldIterator.Name` with parallel
indexing; the slices have one entry per configured field). -/
def fieldTriples (fi : FieldIterator) : List (String × String × String) :=
  fi.Name.zip (fi.ColumnName.zip fi.Query)

/-- The per-field loop: a field parameter with a non-empty value is split
on commas; the k-th sub-value yields `likeFmt ColumnName[i] (param+k)` and
its wrapped value, `param` advances by the number of sub-values, the
field's `Query` entry is appended to `outputQueries` unless already
present, and the field's predicates form one group joined by the global
operator. -/
def fieldLoop (q : URLQuery) (operator : String) :
    List (String × String × String) → WhereAcc → WhereAcc
  | [], acc => acc
  | (c, col, fq) :: rest, (whereLike, whereVal, outputQueries, param) =>
    let metaLike : List String :=
      if q.get c ≠ "" then
        (List.range (goSplit (q.get c) ",").length).map (fun k => likeFmt col (param + k))
      else []
    let whereVal' :=
      if q.get c ≠ "" then whereVal ++ (goSplit (q.get c) ",").map escapeWrap else whereVal
    let param' :=
      if q.get c ≠ "" then param + (goSplit (q.get c) ",").length else param
    let outputQueries' :=
      if q.get c ≠ "" then
        (if outputQueries.contains fq then outputQueries else outputQueries ++ [fq])
      else outputQueries
    let whereLike' :=
      if metaLike.length > 0 then
        whereLike ++ ["(" ++ String.intercalate operator metaLike ++ ")"]
      else whereLike
    fieldLoop q operator rest (whereLike', whereVal', outputQueries', param')

/-- Both WHERE-building passes: the smart-search loop (when the
`smartSearch` parameter is non-empty) followed by the per-field loop,
starting from empty accumulators and `param = 1`. -/
def whereParts (fi : FieldIterator) (q : URLQuery) : WhereAcc :=
  let acc0 : WhereAcc := ([], [], [], 1)
  let acc1 :=
    if q.get "smartSearch" ≠ "" then
      smartLoop fi (goSplit (q.get "smartSearch") ",") acc0
    else acc0
  fieldLoop q (operatorOf q) (fieldTriples fi) acc1

/-- Output-field resolution: each name of a comma-split `fields` parameter
that resolves in the registry contributes its index (unknown names are
skipped); when nothing resolved (or the parameter is absent) every
registry index is used, in registry order. -/
def resolveOutputIndices (fi : FieldIterator) (q : URLQuery) : List Nat :=
  let outputIndices : List Nat :=
    if q.has "fields" then
      (goSplit (q.get "fields") ",").foldl
        (fun acc c =>
          match goIndex fi.Name c with
          | some i => acc ++ [i]
          | none => acc) []
    else []
  if outputIndices.length = 0 then List.range fi.Name.length else outputIndices

/-- The mandatory tag column: locate `tagsIndex` in the output list, or
append it (remembering `outputTagsAppend`) so the projector can post-filter
by tags.  Returns `(outputIndices, outputTagsIndex, outputTagsAppend)`. -/
def appendTags (fi : FieldIterator) (outputIndices : List Nat) :
    List Nat × Nat × Bool :=
  match goIndex outputIndices (tagsIndex fi) with
  | some j => (outputIndices, j, false)
  | none => (outputIndices ++ [tagsIndex fi], outputIndices.length, true)

/-- The limit policy: start from the configured `config.SearchLimit`; an
explicit `limit` parameter replaces it only when it parses and is positive
and either the configured value is exactly `-1` or the parsed value is
strictly below the configured value. -/
def resolveLimit (searchLimit : Int) (hasLimit : Bool) (s : String) : Int :=
  if hasLimit then
    match goAtoi s with
    | some i => if 0 < i ∧ (searchLimit = -1 ∨ i < searchLimit) then i else searchLimit
    | none => searchLimit
  else searchLimit

/-- The LIMIT clause: appended only for a positive resolved limit. -/
def limitClause (limit : Int) : String :=
  if 0 < limit then " LIMIT " ++ toString limit else ""

/-- The compiled query handed to `db.Query`, together with what the row
loop needs. -/
structure SearchCompiled where
  dbQuery : String
  args : List String
  outputIndices : List Nat
  outputTagsIndex : Nat
  outputTagsAppend : Bool
  operator : String
deriving DecidableEq

/-- The `outputColumns`/`outputQueries` accumulation over the final output
index list: every output column name is collected, and each output index's
`Query` entry joins `outputQueries` unless already present. -/
def outputColsQueries (fi : FieldIterator) (outputIndices : List Nat)
    (outputQueries : List String) : List String × List String :=
  outputIndices.foldl
    (fun (acc : List String × List String) i =>
      (acc.1 ++ [fi.ColumnName.getD i ""],
       if acc.2.contains (fi.Query.getD i "") then acc.2
       else acc.2 ++ [fi.Query.getD i ""]))
    ([], outputQueries)

/-- Join elision: the `LEFT JOIN` text is emitted exactly when some
registry entry is marked `DataTable` and its `Query` expression is among
the selected inner queries. -/
def mergeTextOf (fi : FieldIterator) (outputQueries : List String) : String :=
  if (fi.Query.zip fi.DataTable).any (fun p => p.2 && outputQueries.contains p.1) then
    " LEFT JOIN game_data ON game.id=game_data.gameId"
  else ""

/-- The full SQL text handed to `db.Query`: the outer SELECT over the
inner SELECT (with elided join), the WHERE clause joined by the global
operator, and the LIMIT clause of the resolved limit. -/
def dbQueryOf (fi : FieldIterator) (searchLimit : Int) (q : URLQuery) : String :=
  let parts := whereParts fi q
  let res := appendTags fi (resolveOutputIndices fi q)
  let colsQ := outputColsQueries fi res.1 parts.2.2.1
  "SELECT " ++ String.intercalate "," colsQ.1 ++
    " FROM (SELECT " ++ String.intercalate "," colsQ.2 ++
    " FROM game" ++ mergeTextOf fi colsQ.2 ++ ") WHERE " ++
    String.intercalate (operatorOf q) parts.1 ++
    limitClause (resolveLimit searchLimit (q.has "limit") (q.get "limit"))

/-- The query-construction half of `searchHandler`: `none` models the
`len(whereVal) > 0` guard failing (no filter produced, nothing is run). -/
def searchCompile (fi : FieldIterator) (searchLimit : Int) (q : URLQuery) :
    Option SearchCompiled :=
  let parts := whereParts fi q
  if parts.2.1.length > 0 then
    let res := appendTags fi (resolveOutputIndices fi q)
    some
      { dbQuery := dbQueryOf fi searchLimit q
        args := parts.2.1
        outputIndices := res.1
        outputTagsIndex := res.2.1
        outputTagsAppend := res.2.2
        operator := operatorOf q }
  else none

/-! ## Result projector (`searchHandler`, row-processing half) -/

/-- The requested-tags loop.  `tagsLower` is the row's lowercased tag list
as the code builds it; for each requested tag: under `" AND "` a missing
tag marks the row filtered and stops, under `" OR "` a present tag stops
with the row unfiltered; otherwise the loop continues (and ends with the
row unfiltered). -/
def tagMatchLoop (operator : String) (tagsLower : List String) : List String → Bool
  | [] => false
  | t :: rest =>
    let containsTag := tagsLower.contains (goToLower t)
    if operator = " AND " ∧ ¬containsTag then true
    else if operator = " OR " ∧ containsTag then false
    else tagMatchLoop operator tagsLower rest

/-- Tag-match filtering for one row: split the requested `tagsStr` on
commas; build `tagsLower` with `make([]string, len(tags))` followed by
`append`s, i.e. one pre-allocated empty string per tag and then the
lowercased tags; run the loop.  Returns `true` when the row is dropped. -/
def tagMatchFiltered (operator : String) (tagsStr : String) (tags : List String) : Bool :=
  let queryTags := goSplit tagsStr ","
  if queryTags.length > 0 then
    let tagsLower := List.replicate tags.length "" ++ tags.map (fun t => goToLower t)
    tagMatchLoop operator tagsLower queryTags
  else false

/-- One hexadecimal digit (lower case), for control-character escapes. -/
def hexDig (n : Nat) : Char :=
  if n < 10 then Char.ofNat (Char.toNat '0' + n) else Char.ofNat (Char.toNat 'a' + (n - 10))

/-- Per-character escaping of Go `encoding/json.Marshal` on strings:
quote and backslash escapes, HTML-safe escapes for angle brackets and
ampersand, named escapes for newline, carriage return and tab, `\u00XX`
for the remaining control characters, everything else verbatim. -/
def goEscapeChar (c : Char) : List Char :=
  if c = '"' then ['\\', '"']
  else if c = '\\' then ['\\', '\\']
  else if c = '<' then ['\\', 'u', '0', '0', '3', 'c']
  else if c = '>' then ['\\', 'u', '0', '0', '3', 'e']
  else if c = '&' then ['\\', 'u', '0', '0', '2', '6']
  else if c = '\n' then ['\\', 'n']
  else if c = '\r' then ['\\', 'r']
  else if c = '\t' then ['\\', 't']
  else if c.toNat < 32 then ['\\', 'u', '0', '0', hexDig (c.toNat / 16), hexDig (c.toNat % 16)]
  else [c]

/-- Model of `json.Marshal` on a `string` value (which never errors): the
escaped text between double quotes. -/
def goMarshalString (s : String) : String :=
  ⟨'"' :: (s.data.map goEscapeChar).flatten ++ ['"']⟩

/-- Model of `strings.Trim(s, "\"")`: remove leading and trailing runs of
double-quote characters. -/
def trimQuotes (s : String) : String :=
  ⟨((s.data.dropWhile (fun c => c = '"')).reverse.dropWhile (fun c => c = '"')).reverse⟩

/-- The type-directed rendering of one raw column value (the `switch
fieldIterator.Type[fieldIndex]` over the marshalled value): `array`
replaces every `"; "` by `","` inside the quoted value and brackets it,
`bool` strips the quotes, anything else is the marshalled string. -/
def typedRender (fi : FieldIterator) (fieldIndex : Nat) (v : String) : String :=
  let jsonValue := goMarshalString v
  if fi.Typ.getD fieldIndex "" = "array" then
    "[" ++ goReplaceAll jsonValue "; " "\",\"" ++ "]"
  else if fi.Typ.getD fieldIndex "" = "bool" then
    trimQuotes jsonValue
  else jsonValue

/-- The hand-built JSON object for one surviving row: key `Name[fieldIndex]`
and typed value for the i-th entry, `fieldIndex := outputIndices[i]`,
comma-separated (the Go loop appends a comma after every entry but the
last, which is `String.intercalate ","`; `entry` never outruns
`outputIndices`). -/
def jsonObjectOf (fi : FieldIterator) (outputIndices : List Nat) (entry : List String) : String :=
  "\x7b" ++
    String.intercalate ","
      ((entry.zip outputIndices).map
        (fun p => "\"" ++ fi.Name.getD p.2 "" ++ "\":" ++ typedRender fi p.2 p.1)) ++
  "\x7d"

/-- The `rows.Next()` loop over scanned rows: `none` models a row whose
`rows.Scan` fails (logged and the loop breaks; rows collected so far are
kept), `some entry` a scanned row of raw column texts.  A surviving row
drops the auto-appended tag column before serialisation. -/
def processRows (fi : FieldIterator) (q : URLQuery) (filteredTags : List String)
    (outputIndices : List Nat) (outputTagsIndex : Nat) (outputTagsAppend : Bool)
    (operator : String) : List (Option (List String)) → List String
  | [] => []
  | none :: _ => []
  | some entry :: rest =>
    let tags := goSplit (entry.getD outputTagsIndex "") "; "
    let filtered :=
      if goToLower (q.get "filter") = "true" then
        tags.any (fun v => filteredTags.contains v)
      else false
    let filtered' :=
      if ¬filtered ∧ q.has "tagsStr" then
        tagMatchFiltered operator (q.get "tagsStr") tags
      else filtered
    if filtered' then
      processRows fi q filteredTags outputIndices outputTagsIndex outputTagsAppend operator rest
    else
      jsonObjectOf fi outputIndices (if outputTagsAppend then entry.dropLast else entry) ::
        processRows fi q filteredTags outputIndices outputTagsIndex outputTagsAppend operator rest

/-- The handler's observable outcome: `serverError` models
`WriteHeader(http.StatusInternalServerError)` with no body, `ok body` a
written JSON response. -/
inductive SearchResponse where
  | serverError : SearchResponse
  | ok : String → SearchResponse
deriving DecidableEq

/-- The whole `searchHandler`, with the database as an oracle from the
compiled statement and its ordered arguments to either a query error
(`none`) or a list of row-scan outcomes. -/
def searchHandler (fi : FieldIterator) (searchLimit : Int) (filteredTags : List String)
    (q : URLQuery)
    (dbExec : String → List String → Option (List (Option (List String)))) :
    SearchResponse :=
  match searchCompile fi searchLimit q with
  | none => .ok ("[" ++ String.intercalate "," [] ++ "]")
  | some sc =>
    match dbExec sc.dbQuery sc.args with
    | none => .serverError
    | some rows =>
      .ok ("[" ++
        String.intercalate ","
          (processRows fi q filteredTags sc.outputIndices sc.outputTagsIndex
            sc.outputTagsAppend sc.operator rows) ++ "]")

/-! ## Helper lemmas -/

theorem splitOn1_ne_nil (x : Char) (l : List Char) : splitOn1 x l ≠ [] := by
  induction l with
  | nil => simp [splitOn1]
  | cons a rest ih =>
    simp only [splitOn1]
    split
    · simp
    · split
      · simp
      · simp

theorem splitOn2_ne_nil (x y : Char) : ∀ l : List Char, splitOn2 x y l ≠ []
  | [] => by simp [splitOn2]
  | [a] => by simp [splitOn2]
  | a :: b :: rest => by
    rw [splitOn2]
    split
    · simp
    · split
      · simp
      · simp

theorem goSplit_ne_nil (s sep : String) : goSplit s sep ≠ [] := by
  unfold goSplit
  split
  · simp [splitOn1_ne_nil]
  · simp [splitOn2_ne_nil]
  · simp

/-- The per-field loop leaves its accumulator untouched when every field
parameter it visits is empty. -/
theorem fieldLoop_of_all_empty (q : URLQuery) (op : String) :
    ∀ (ts : List (String × String × String)) (acc : WhereAcc),
      (∀ t ∈ ts, q.get t.1 = "") → fieldLoop q op ts acc = acc := by
  intro ts
  induction ts with
  | nil => intro acc _; rfl
  | cons t rest ih =>
    intro acc h
    obtain ⟨c, col, fq⟩ := t
    obtain ⟨wl, wv, oq, p⟩ := acc
    have hc : q.get c = "" := h (c, col, fq) (by simp)
    simp only [fieldLoop, hc]
    simpa using ih _ (fun t ht => h t (by simp [ht]))

/-- The OR-mode requested-tags loop never marks a row filtered: a matching
tag breaks out with the flag still unset, and so does loop exhaustion. -/
theorem tagMatchLoop_or_eq_false (tagsLower : List String) :
    ∀ l : List String, tagMatchLoop " OR " tagsLower l = false := by
  intro l
  induction l with
  | nil => rfl
  | cons t rest ih =>
    simp only [tagMatchLoop]
    split
    · next h => exact absurd h.1 (by decide)
    · split
      · rfl
      · exact ih

/-- The AND-mode requested-tags loop filters the row exactly when some
requested tag's lowercase form is missing from `tagsLower`. -/
theorem tagMatchLoop_and_iff (tagsLower : List String) :
    ∀ l : List String,
      tagMatchLoop " AND " tagsLower l = true ↔
        ∃ t ∈ l, ¬ tagsLower.contains (goToLower t) := by
  intro l
  induction l with
  | nil => simp [tagMatchLoop]
  | cons t rest ih =>
    by_cases hc : tagsLower.contains (goToLower t)
    · simp [tagMatchLoop, hc, ih]
    · simp [tagMatchLoop, hc, ih]

/-! ## Claim C1 (tag-match filtering) -/

/-- C1, evaluation at the failing input: in OR mode (`any=true`) with
requested tag list `"b"`, a row whose tag list is `["a"]` matches none of
the requested tags, yet the row is NOT dropped (`tagMatchFiltered` returns
`false`); the second conjunct shows the defect in general: OR-mode
tag-match filtering never drops any row, because the loop only ever breaks
out early and never records a failed match. -/
theorem tagsStr_or_mode_never_drops :
    tagMatchFiltered " OR " "b" ["a"] = false ∧
    ∀ (qs : String) (tags : List String), tagMatchFiltered " OR " qs tags = false := by
  refine ⟨by decide, ?_⟩
  intro qs tags
  simp [tagMatchFiltered, tagMatchLoop_or_eq_false]

/-! ## Claim C10 (empty `tagsStr` value) -/

/-- C10: when `tagsStr` is present but empty, splitting the empty value on
commas yields the single empty-string tag; the row's lowercased tag list as
constructed (one pre-allocated empty slot per tag, then the lowercased
tags) always contains the empty string, so tag-match filtering drops no row
in any combination mode. -/
theorem empty_tagsStr_never_filters (op : String) (tags : List String) (h : tags ≠ []) :
    goSplit "" "," = [""] ∧
    (List.replicate tags.length "" ++ tags.map (fun t => goToLower t)).contains "" = true ∧
    tagMatchFiltered op "" tags = false := by
  have hmem : ("" : String) ∈ List.replicate tags.length "" ++ tags.map (fun t => goToLower t) := by
    refine List.mem_append.mpr (Or.inl ?_)
    rw [List.mem_replicate]
    exact ⟨by simpa using h, rfl⟩
  have hcont : (List.replicate tags.length "" ++ tags.map (fun t => goToLower t)).contains ""
      = true := by simpa using hmem
  refine ⟨rfl, hcont, ?_⟩
  show (if op = " AND " ∧ ¬((List.replicate tags.length "" ++ tags.map (fun t => goToLower t)).contains (goToLower "")) then true
        else if op = " OR " ∧ ((List.replicate tags.length "" ++ tags.map (fun t => goToLower t)).contains (goToLower "")) then false
        else tagMatchLoop op (List.replicate tags.length "" ++ tags.map (fun t => goToLower t)) []) = false
  simp only [show goToLower "" = "" from rfl]
  rw [if_neg (fun hh => hh.2 hcont)]
  split
  · rfl
  · rfl

/-- Closed instance of `empty_tagsStr_never_filters` at a concrete mode and
row. -/
theorem empty_tagsStr_never_filters_witness :
    goSplit "" "," = [""] ∧
    (List.replicate (["Action"] : List String).length ""
      ++ (["Action"] : List String).map (fun t => goToLower t)).contains "" = true ∧
    tagMatchFiltered " AND " "" ["Action"] = false :=
  empty_tagsStr_never_filters " AND " ["Action"] (by decide)

/-! ## Claim C2 (limit policy) -/

/-- C2 counterexample: the claim treats every nonpositive configured value
as the "no ceiling" sentinel, under which `limit=5` would be honored and
`LIMIT 5` emitted; with `config.SearchLimit = -2` the code ignores the
caller's limit (the sentinel test is `== -1` exactly), resolves `-2`, and
emits no LIMIT clause. -/
theorem limit_sentinel_counterexample :
    resolveLimit (-2) true "5" = -2 ∧ resolveLimit (-2) true "5" ≠ 5 ∧
    limitClause (resolveLimit (-2) true "5") = "" := by
  decide

/-- Any successful `strconv.Atoi` parse lies inside the signed 64-bit
range: an overflowing limit string is `ErrRange` and parses to `none`. -/
theorem goAtoi_range (t : String) (i : Int) (h : goAtoi t = some i) :
    -9223372036854775808 ≤ i ∧ i ≤ 9223372036854775807 := by
  have hb : ∀ {n j : Int}, int64InRange n = some j →
      -9223372036854775808 ≤ j ∧ j ≤ 9223372036854775807 := by
    intro n j hr
    unfold int64InRange at hr
    split at hr
    · next hc =>
      cases hr
      exact hc
    · cases hr
  simp only [goAtoi] at h
  split at h
  · rw [Option.bind_eq_some] at h
    obtain ⟨n, _, hr⟩ := h
    exact hb hr
  · rw [Option.bind_eq_some] at h
    obtain ⟨n, _, hr⟩ := h
    exact hb hr
  · rw [Option.bind_eq_some] at h
    obtain ⟨n, _, hr⟩ := h
    exact hb hr

/-- C2 as amended: the "no ceiling" sentinel is exactly `-1`.  The caller's
limit is honored iff it parses positive and either the configured value is
`-1` or the parsed value is strictly below it; otherwise (including a
failed parse — non-numeric or outside the signed 64-bit range — or an
absent parameter) the configured value stands; every successful parse is
within the 64-bit range; a positive configured ceiling bounds the resolved
limit; the LIMIT clause is emitted exactly for a positive resolved limit,
and is what the compiled statement ends with. -/
theorem limit_policy_amended (cfg : Int) (s : String) (i : Int) (hp : goAtoi s = some i) :
    ((0 < i ∧ (cfg = -1 ∨ i < cfg)) → resolveLimit cfg true s = i) ∧
    (¬(0 < i ∧ (cfg = -1 ∨ i < cfg)) → resolveLimit cfg true s = cfg) ∧
    (∀ t, goAtoi t = none → resolveLimit cfg true t = cfg) ∧
    (∀ t, resolveLimit cfg false t = cfg) ∧
    (0 < cfg → resolveLimit cfg true s ≤ cfg) ∧
    (∀ L : Int, 0 < L → limitClause L = " LIMIT " ++ toString L) ∧
    (∀ L : Int, L ≤ 0 → limitClause L = "") ∧
    (∀ (fi : FieldIterator) (q : URLQuery) (sc : SearchCompiled),
      searchCompile fi cfg q = some sc →
      ∃ pre, sc.dbQuery
        = pre ++ limitClause (resolveLimit cfg (q.has "limit") (q.get "limit"))) ∧
    (∀ (t : String) (j : Int), goAtoi t = some j →
      -9223372036854775808 ≤ j ∧ j ≤ 9223372036854775807) := by
  refine ⟨?_, ?_, ?_, ?_, ?_, ?_, ?_, ?_, ?_⟩
  · intro h; simp [resolveLimit, hp, h]
  · intro h; simp [resolveLimit, hp, h]
  · intro t ht; simp [resolveLimit, ht]
  · intro t; simp [resolveLimit]
  · intro hcfg
    simp only [resolveLimit, hp, if_true]
    split
    · next h => exact le_of_lt (h.2.resolve_left (by omega))
    · exact le_refl _
  · intro L hL; simp [limitClause, hL]
  · intro L hL; simp only [limitClause]; rw [if_neg (by omega)]
  · intro fi q sc hsc
    simp only [searchCompile] at hsc
    split at hsc
    · have := Option.some.inj hsc
      subst this
      exact ⟨_, rfl⟩
    · exact absurd hsc (by simp)
  · exact goAtoi_range

/-- Closed instance of `limit_policy_amended`: a caller limit of 2 below a
ceiling of 3 is honored. -/
theorem limit_policy_amended_witness : resolveLimit 3 true "2" = 2 :=
  (limit_policy_amended 3 "2" 2 rfl).1 ⟨by decide, Or.inr (by decide)⟩

/-! ## Claim C5 (no filters, empty result) -/

/-- C5: a request producing no filter group (empty `smartSearch` and every
registered field parameter empty) compiles to no query at all, and the
handler answers `[]` whatever the database oracle would do — the outcome
does not depend on the oracle, so no query runs, and no error is raised. -/
theorem no_filters_empty_result (fi : FieldIterator) (sl : Int) (ft : List String)
    (q : URLQuery)
    (db : String → List String → Option (List (Option (List String))))
    (hs : q.get "smartSearch" = "") (hf : ∀ c ∈ fi.Name, q.get c = "") :
    searchCompile fi sl q = none ∧ searchHandler fi sl ft q db = .ok "[]" := by
  have hw : whereParts fi q = ([], [], [], 1) := by
    show fieldLoop q (operatorOf q) (fieldTriples fi)
        (if q.get "smartSearch" ≠ "" then
          smartLoop fi (goSplit (q.get "smartSearch") ",") ([], [], [], 1)
        else ([], [], [], 1)) = ([], [], [], 1)
    rw [if_neg (by simp [hs])]
    apply fieldLoop_of_all_empty
    intro t ht
    obtain ⟨c, col, fq⟩ := t
    exact hf c (List.of_mem_zip ht).1
  have hc : searchCompile fi sl q = none := by
    simp [searchCompile, hw]
  refine ⟨hc, ?_⟩
  simp only [searchHandler, hc]
  rfl

/-- Closed instance of `no_filters_empty_result`: the all-empty request
against the spec registry yields `[]` even for an oracle that would return
a row. -/
theorem no_filters_empty_result_witness :
    searchCompile specFields 100 ⟨fun _ => "", fun _ => false⟩ = none ∧
    searchHandler specFields 100 [] ⟨fun _ => "", fun _ => false⟩
      (fun _ _ => some [some ["r"]]) = .ok "[]" :=
  no_filters_empty_result specFields 100 [] ⟨fun _ => "", fun _ => false⟩
    (fun _ _ => some [some ["r"]]) rfl (fun _ _ => rfl)

/-! ## Claim C7 (typed serialization) -/

/-- C7: a field of type `array` with raw value `"a; b; c"` serializes to
`["a","b","c"]` and with the empty raw value to `[""]`; a field of type
`bool` with raw value `"true"` serializes to the bare token `true` (and
`"false"` to `false`, quote-trimming being the only coercion); any other
type serializes the marshalled JSON string of the raw value. -/
theorem typed_serialization (fi : FieldIterator) (i j k : Nat) (v : String)
    (hi : fi.Typ.getD i "" = "array") (hj : fi.Typ.getD j "" = "bool")
    (hk : fi.Typ.getD k "" ≠ "array" ∧ fi.Typ.getD k "" ≠ "bool") :
    typedRender fi i "a; b; c" = "[\"a\",\"b\",\"c\"]" ∧
    typedRender fi i "" = "[\"\"]" ∧
    typedRender fi j "true" = "true" ∧
    typedRender fi j "false" = "false" ∧
    typedRender fi k v = goMarshalString v := by
  refine ⟨?_, ?_, ?_, ?_, ?_⟩
  · simp only [typedRender, hi]; decide
  · simp only [typedRender, hi]; decide
  · simp only [typedRender, hj]; decide
  · simp only [typedRender, hj]; decide
  · simp only [typedRender, hk.1, hk.2]
    simp

/-- Closed instance of `typed_serialization` at the spec registry's
`tags` (array), `zipped` (bool) and `id` (string) fields. -/
theorem typed_serialization_witness :
    typedRender specFields 8 "a; b; c" = "[\"a\",\"b\",\"c\"]" ∧
    typedRender specFields 8 "" = "[\"\"]" ∧
    typedRender specFields 9 "true" = "true" ∧
    typedRender specFields 9 "false" = "false" ∧
    typedRender specFields 0 "x" = goMarshalString "x" :=
  typed_serialization specFields 8 9 0 "x" rfl rfl (by decide)

/-! ## Claim C9 (row-scan failure, partial results) -/

/-- The row loop stops at the first scan failure and keeps what it already
produced: the failing row and everything after it contribute nothing. -/
theorem processRows_stops (fi : FieldIterator) (q : URLQuery) (ft : List String)
    (idxs : List Nat) (ti : Nat) (ta : Bool) (op : String) :
    ∀ (gs : List (List String)) (rest : List (Option (List String))),
      processRows fi q ft idxs ti ta op (gs.map some ++ none :: rest) =
        processRows fi q ft idxs ti ta op (gs.map some) := by
  intro gs rest
  induction gs with
  | nil => rfl
  | cons g gs ih =>
    simp only [List.map_cons, List.cons_append, processRows, List.append_eq]
    rw [ih]

/-- C9: when the row cursor yields good rows, then a row whose scan fails,
then more rows, the failing row is not emitted, the loop stops there (the
later rows are never processed), and the respons e body still carries the
rows accumulated before the failure: the handler's output is exactly the
output for the good prefix alone. -/
theorem row_scan_failure_partial_results (fi : FieldIterator) (q : URLQuery)
    (ft : List String) (idxs : List Nat) (ti : Nat) (ta : Bool) (op : String)
    (gs : List (List String)) (rest : List (Option (List String))) :
    processRows fi q ft idxs ti ta op (gs.map some ++ none :: rest) =
      processRows fi q ft idxs ti ta op (gs.map some) ∧
    ∀ sl : Int,
      searchHandler fi sl ft q (fun _ _ => some (gs.map some ++ none :: rest)) =
        searchHandler fi sl ft q (fun _ _ => some (gs.map some)) := by
  refine ⟨processRows_stops fi q ft idxs ti ta op gs rest, ?_⟩
  intro sl
  simp only [searchHandler]
  cases searchCompile fi sl q with
  | none => rfl
  | some sc => simp only [processRows_stops]

/-! ## Claim C3 (LIKE escaping round trip)

The database engine is external to the repository; the spec treats it as a
black box satisfying SQL `LIKE` semantics.  `likeMatch` models SQLite's
`LIKE` with an `ESCAPE` character of `'^'` (as the emitted predicates
declare): `%` matches any sequence, `_` any single character, `^c` the
literal character `c`, and literal comparison folds ASCII case
(`Char.toLower`), as SQLite's default `LIKE` does. -/

/-- SQL LIKE matching of a pattern (first argument) against a string, with
escape character `'^'` and ASCII case folding. -/
def likeMatch : List Char → List Char → Bool
  | [], s => s.isEmpty
  | c :: p, s =>
    if c = '^' then
      match p, s with
      | e :: p', d :: s' => (e.toLower == d.toLower) && likeMatch p' s'
      | _, _ => false
    else if c = '%' then
      likeMatch p s ||
        (match s with
         | [] => false
         | _ :: s' => likeMatch (c :: p) s')
    else if c = '_' then
      (match s with
       | _ :: s' => likeMatch p s'
       | [] => false)
    else
      (match s with
       | d :: s' => (c.toLower == d.toLower) && likeMatch p s'
       | [] => false)
  termination_by p s => (p.length, s.length)

/-- The character-list form of `queryReplace`. -/
def escapeL (v : List Char) : List Char :=
  (v.map escChar).flatten

theorem queryReplace_data (s : String) : (queryReplace s).data = escapeL s.data := rfl

theorem likeMatch_nil (s : List Char) : likeMatch [] s = s.isEmpty := by
  rw [likeMatch.eq_1]

theorem likeMatch_esc_cons (e : Char) (p : List Char) (d : Char) (s : List Char) :
    likeMatch ('^' :: e :: p) (d :: s) = ((e.toLower == d.toLower) && likeMatch p s) := by
  rw [likeMatch.eq_def]
  simp

theorem likeMatch_esc_nil (p : List Char) : likeMatch ('^' :: p) [] = false := by
  cases p <;> (rw [likeMatch.eq_def]; simp)

theorem likeMatch_pct_nil (p : List Char) : likeMatch ('%' :: p) [] = likeMatch p [] := by
  rw [likeMatch.eq_def]
  simp

theorem likeMatch_pct_cons (p : List Char) (d : Char) (s : List Char) :
    likeMatch ('%' :: p) (d :: s) = (likeMatch p (d :: s) || likeMatch ('%' :: p) s) := by
  rw [likeMatch.eq_def]
  simp

theorem likeMatch_lit_cons {c : Char} (h1 : c ≠ '^') (h2 : c ≠ '%') (h3 : c ≠ '_')
    (p : List Char) (d : Char) (s : List Char) :
    likeMatch (c :: p) (d :: s) = ((c.toLower == d.toLower) && likeMatch p s) := by
  rw [likeMatch.eq_def]
  simp [h1, h2, h3]

theorem likeMatch_lit_nil {c : Char} (h1 : c ≠ '^') (h2 : c ≠ '%') (h3 : c ≠ '_')
    (p : List Char) : likeMatch (c :: p) [] = false := by
  rw [likeMatch.eq_def]
  simp [h1, h2, h3]

/-- An escaped value, as a LIKE pattern, matches exactly the value itself
(up to the case folding LIKE applies anyway): no character of the value is
left to act as a wildcard. -/
theorem likeMatch_escape (v : List Char) :
    ∀ s, likeMatch (escapeL v) s = true ↔ s.map Char.toLower = v.map Char.toLower := by
  induction v with
  | nil =>
    intro s
    rw [show escapeL [] = [] from rfl, likeMatch_nil]
    simp [List.isEmpty_iff]
  | cons c v ih =>
    intro s
    by_cases hc : c = '^' ∨ c = '%' ∨ c = '_'
    · have he : escapeL (c :: v) = '^' :: c :: escapeL v := by
        simp [escapeL, escChar, hc]
      rw [he]
      cases s with
      | nil => simp [likeMatch_esc_nil]
      | cons d s' =>
        rw [likeMatch_esc_cons]
        simp only [Bool.and_eq_true, beq_iff_eq, ih s', List.map_cons, List.cons.injEq]
        constructor
        · exact fun h => ⟨h.1.symm, h.2⟩
        · exact fun h => ⟨h.1.symm, h.2⟩
    · push_neg at hc
      have he : escapeL (c :: v) = c :: escapeL v := by
        simp [escapeL, escChar, hc.1, hc.2.1, hc.2.2]
      rw [he]
      cases s with
      | nil => simp [likeMatch_lit_nil hc.1 hc.2.1 hc.2.2]
      | cons d s' =>
        rw [likeMatch_lit_cons hc.1 hc.2.1 hc.2.2]
        simp only [Bool.and_eq_true, beq_iff_eq, ih s', List.map_cons, List.cons.injEq]
        constructor
        · exact fun h => ⟨h.1.symm, h.2⟩
        · exact fun h => ⟨h.1.symm, h.2⟩

/-- The pattern `"%"` matches every string. -/
theorem likeMatch_percent_nil : ∀ s, likeMatch ['%'] s = true := by
  intro s
  induction s with
  | nil => rw [likeMatch_pct_nil, likeMatch_nil]; rfl
  | cons d s' ih => rw [likeMatch_pct_cons]; simp [ih]

/-- An escaped value followed by `%` matches exactly the strings whose
case-folded form starts with the case-folded value. -/
theorem likeMatch_escape_percent (v : List Char) :
    ∀ s, likeMatch (escapeL v ++ ['%']) s = true ↔
      (v.map Char.toLower) <+: (s.map Char.toLower) := by
  induction v with
  | nil =>
    intro s
    rw [show escapeL [] ++ ['%'] = ['%'] from rfl, likeMatch_percent_nil s]
    simp [List.nil_prefix]
  | cons c v ih =>
    intro s
    by_cases hc : c = '^' ∨ c = '%' ∨ c = '_'
    · have he : escapeL (c :: v) ++ ['%'] = '^' :: c :: (escapeL v ++ ['%']) := by
        simp [escapeL, escChar, hc]
      rw [he]
      cases s with
      | nil => simp [likeMatch_esc_nil]
      | cons d s' =>
        rw [likeMatch_esc_cons]
        simp only [Bool.and_eq_true, beq_iff_eq, ih s', List.map_cons,
          List.cons_prefix_cons]
    · push_neg at hc
      have he : escapeL (c :: v) ++ ['%'] = c :: (escapeL v ++ ['%']) := by
        simp [escapeL, escChar, hc.1, hc.2.1, hc.2.2]
      rw [he]
      cases s with
      | nil => simp [likeMatch_lit_nil hc.1 hc.2.1 hc.2.2]
      | cons d s' =>
        rw [likeMatch_lit_cons hc.1 hc.2.1 hc.2.2]
        simp only [Bool.and_eq_true, beq_iff_eq, ih s', List.map_cons,
          List.cons_prefix_cons]

/-- A leading `%` matches a string exactly when the rest of the pattern
matches some suffix. -/
theorem likeMatch_percent_iff (p : List Char) :
    ∀ s, likeMatch ('%' :: p) s = true ↔ ∃ t, t <:+ s ∧ likeMatch p t = true := by
  intro s
  induction s with
  | nil =>
    rw [likeMatch_pct_nil]
    simp [List.suffix_nil]
  | cons d s' ih =>
    rw [likeMatch_pct_cons]
    simp only [Bool.or_eq_true, ih, List.suffix_cons_iff]
    constructor
    · rintro (h | ⟨t, ht, hm⟩)
      · exact ⟨d :: s', Or.inl rfl, h⟩
      · exact ⟨t, Or.inr ht, hm⟩
    · rintro ⟨t, ht | ht, hm⟩
      · subst ht; exact Or.inl hm
      · exact Or.inr ⟨t, ht, hm⟩

/-- A suffix of a mapped list is the image of a suffix. -/
theorem exists_suffix_of_suffix_map {α β : Type} (f : α → β) {u : List β} {l : List α}
    (h : u <:+ l.map f) : ∃ t, t <:+ l ∧ u = t.map f := by
  obtain ⟨pre, hp⟩ := h
  obtain ⟨l₁, l₂, rfl, _, h₂⟩ := List.map_eq_append_iff.mp hp.symm
  exact ⟨l₂, ⟨l₁, rfl⟩, h₂.symm⟩

/-- The full `%value%` pattern built by the compiler matches exactly the
strings whose case-folded form contains the case-folded value as a
contiguous substring: every `%`, `_` or `^` inside the value matches only
itself. -/
theorem likeMatch_escapeWrap (v s : String) :
    likeMatch (escapeWrap v).data s.data = true ↔
      (v.data.map Char.toLower) <:+: (s.data.map Char.toLower) := by
  have hd : (escapeWrap v).data = '%' :: (escapeL v.data ++ ['%']) := by
    show ('%' :: (queryReplace v).data) ++ ['%'] = _
    rw [queryReplace_data]
    simp
  rw [hd, likeMatch_percent_iff]
  constructor
  · rintro ⟨t, ht, hm⟩
    have hp := (likeMatch_escape_percent v.data t).mp hm
    exact List.infix_iff_prefix_suffix.mpr
      ⟨t.map Char.toLower, hp, List.IsSuffix.map Char.toLower ht⟩
  · intro h
    obtain ⟨u, hu, hus⟩ := List.infix_iff_prefix_suffix.mp h
    obtain ⟨t, hts, rfl⟩ := exists_suffix_of_suffix_map Char.toLower hus
    exact ⟨t, hts, (likeMatch_escape_percent v.data t).mpr hu⟩

/-- The flat list of literal sub-values of the per-field loop, in emission
order: the comma-split sub-values of each registry field whose parameter is
non-empty. -/
def fieldSubValuesSpec (q : URLQuery) : List (String × String × String) → List String
  | [] => []
  | (c, _, _) :: rest =>
    (if q.get c ≠ "" then goSplit (q.get c) "," else []) ++ fieldSubValuesSpec q rest

/-- Every literal sub-value of a request, in the order the compiler binds
them: the smart-search terms, then the per-field sub-values. -/
def subValuesSpec (fi : FieldIterator) (q : URLQuery) : List String :=
  (if q.get "smartSearch" ≠ "" then goSplit (q.get "smartSearch") "," else [])
    ++ fieldSubValuesSpec q (fieldTriples fi)

theorem smartLoop_val (fi : FieldIterator) :
    ∀ (ts : List String) (acc : WhereAcc),
      (smartLoop fi ts acc).2.1 = acc.2.1 ++ ts.map escapeWrap := by
  intro ts
  induction ts with
  | nil => intro acc; simp [smartLoop]
  | cons v rest ih =>
    intro acc
    obtain ⟨wl, wv, oq, p⟩ := acc
    simp [smartLoop, ih]

theorem fieldLoop_val (q : URLQuery) (op : String) :
    ∀ (ts : List (String × String × String)) (acc : WhereAcc),
      (fieldLoop q op ts acc).2.1 = acc.2.1 ++ (fieldSubValuesSpec q ts).map escapeWrap := by
  intro ts
  induction ts with
  | nil => intro acc; simp [fieldLoop, fieldSubValuesSpec]
  | cons t rest ih =>
    intro acc
    obtain ⟨c, col, fq⟩ := t
    obtain ⟨wl, wv, oq, p⟩ := acc
    by_cases hc : q.get c ≠ ""
    · simp [fieldLoop, fieldSubValuesSpec, hc, ih]
    · simp [fieldLoop, fieldSubValuesSpec, hc, ih]

/-- The ordered bound-parameter list is exactly the escaped and
`%`-wrapped sub-values. -/
theorem whereParts_val (fi : FieldIterator) (q : URLQuery) :
    (whereParts fi q).2.1 = (subValuesSpec fi q).map escapeWrap := by
  show (fieldLoop q (operatorOf q) (fieldTriples fi)
      (if q.get "smartSearch" ≠ "" then
        smartLoop fi (goSplit (q.get "smartSearch") ",") ([], [], [], 1)
      else ([], [], [], 1))).2.1 = (subValuesSpec fi q).map escapeWrap
  unfold subValuesSpec
  by_cases hs : q.get "smartSearch" ≠ ""
  · rw [if_pos hs, if_pos hs, fieldLoop_val, smartLoop_val]
    simp
  · rw [if_neg hs, if_neg hs, fieldLoop_val]
    simp

/-- C3: every literal filter value is escaped with the three-rule replacer,
wrapped as `%escaped%`, and handed to the database only through the
ordered bound-argument list (`args = whereVal`, the wrapped sub-values in
order); under LIKE-with-`ESCAPE '^'` semantics the wrapped pattern matches
exactly the strings containing the literal value as a substring, so a
literal `%`, `_` or `^` in a filter value never acts as a wildcard. -/
theorem like_escaping_round_trip (fi : FieldIterator) (q : URLQuery) (v s : String) :
    (whereParts fi q).2.1 = (subValuesSpec fi q).map escapeWrap ∧
    (∀ (sl : Int) (sc : SearchCompiled), searchCompile fi sl q = some sc →
      sc.args = (subValuesSpec fi q).map escapeWrap) ∧
    (likeMatch (escapeWrap v).data s.data = true ↔
      (v.data.map Char.toLower) <:+: (s.data.map Char.toLower)) := by
  refine ⟨whereParts_val fi q, ?_, likeMatch_escapeWrap v s⟩
  intro sl sc hsc
  simp only [searchCompile] at hsc
  split at hsc
  · have := Option.some.inj hsc
    subst this
    exact whereParts_val fi q
  · exact absurd hsc (by simp)

/-! ## Claim C8 (group structure of the WHERE clause) -/

/-- The parenthesised groups of the per-field filters, in registry order,
with explicit first parameter number `p`: a field with a non-empty
parameter contributes one group of one LIKE predicate per comma-split
sub-value on the field's filter column, joined by the global operator;
parameter numbers advance by the number of sub-values. -/
def fieldGroupsSpec (q : URLQuery) (op : String) :
    List (String × String × String) → Nat → List String
  | [], _ => []
  | (c, col, _) :: rest, p =>
    if q.get c ≠ "" then
      ("(" ++ String.intercalate op
        ((List.range (goSplit (q.get c) ",").length).map (fun k => likeFmt col (p + k)))
        ++ ")")
        :: fieldGroupsSpec q op rest (p + (goSplit (q.get c) ",").length)
    else fieldGroupsSpec q op rest p

theorem smartLoop_param (fi : FieldIterator) :
    ∀ (ts : List String) (acc : WhereAcc),
      (smartLoop fi ts acc).2.2.2 = acc.2.2.2 + ts.length := by
  intro ts
  induction ts with
  | nil => intro acc; simp [smartLoop]
  | cons v rest ih =>
    intro acc
    obtain ⟨wl, wv, oq, p⟩ := acc
    simp [smartLoop, ih]
    omega

theorem smartLoop_like (fi : FieldIterator) :
    ∀ (ts : List String) (acc : WhereAcc),
      (smartLoop fi ts acc).1 = acc.1 ++
        (List.range ts.length).map (fun k =>
          "(" ++ String.intercalate " OR "
            (smartIdxs.map (fun i => likeFmt (fi.Name.getD i "") (acc.2.2.2 + k))) ++ ")") := by
  intro ts
  induction ts with
  | nil => intro acc; simp [smartLoop]
  | cons v rest ih =>
    intro acc
    obtain ⟨wl, wv, oq, p⟩ := acc
    rw [show smartLoop fi (v :: rest) (wl, wv, oq, p) = smartLoop fi rest
        (wl ++ ["(" ++ String.intercalate " OR "
            (smartIdxs.map (fun i => likeFmt (fi.Name.getD i "") p)) ++ ")"],
          wv ++ [escapeWrap v],
          oq ++ smartIdxs.map (fun i => fi.Query.getD i ""),
          p + 1) from rfl]
    rw [ih]
    simp only [List.append_assoc, List.singleton_append, List.length_cons]
    congr 1
    rw [List.range_succ_eq_map, List.map_cons, List.map_map]
    congr 1
    refine List.map_congr_left ?_
    intro k _
    simp only [Function.comp_apply, Nat.succ_eq_add_one]
    have e : p + 1 + k = p + (k + 1) := by omega
    rw [e]

theorem fieldLoop_like (q : URLQuery) (op : String) :
    ∀ (ts : List (String × String × String)) (acc : WhereAcc),
      (fieldLoop q op ts acc).1 = acc.1 ++ fieldGroupsSpec q op ts acc.2.2.2 := by
  intro ts
  induction ts with
  | nil => intro acc; simp [fieldLoop, fieldGroupsSpec]
  | cons t rest ih =>
    intro acc
    obtain ⟨c, col, fq⟩ := t
    obtain ⟨wl, wv, oq, p⟩ := acc
    by_cases hc : q.get c ≠ ""
    · have hn : 0 < (goSplit (q.get c) ",").length :=
        List.length_pos.mpr (goSplit_ne_nil _ _)
      simp only [fieldLoop, if_pos hc, fieldGroupsSpec]
      rw [if_pos (by simp only [List.length_map, List.length_range, gt_iff_lt]; exact hn)]
      rw [ih]
      simp
    · have hc' : q.get c = "" := not_not.mp hc
      simp [fieldLoop, fieldGroupsSpec, hc', ih]

/-- The whole `whereLike` list: the smart-search OR-groups (parameters `1`
through the number of terms), then the per-field groups (parameters
continuing where the smart groups stopped). -/
theorem whereParts_like (fi : FieldIterator) (q : URLQuery) :
    (whereParts fi q).1 =
      (if q.get "smartSearch" ≠ "" then
        (List.range (goSplit (q.get "smartSearch") ",").length).map (fun k =>
          "(" ++ String.intercalate " OR "
            (smartIdxs.map (fun i => likeFmt (fi.Name.getD i "") (1 + k))) ++ ")")
      else []) ++
      fieldGroupsSpec q (operatorOf q) (fieldTriples fi)
        (if q.get "smartSearch" ≠ ""
         then 1 + (goSplit (q.get "smartSearch") ",").length else 1) := by
  show (fieldLoop q (operatorOf q) (fieldTriples fi)
      (if q.get "smartSearch" ≠ "" then
        smartLoop fi (goSplit (q.get "smartSearch") ",") ([], [], [], 1)
      else ([], [], [], 1))).1 = _
  by_cases hs : q.get "smartSearch" ≠ ""
  · rw [if_pos hs, if_pos hs, if_pos hs, fieldLoop_like, smartLoop_like, smartLoop_param]
    try simp
  · rw [if_neg hs, if_neg hs, if_neg hs, fieldLoop_like]
    try simp

/-- C8: every non-empty registered field parameter splits on commas into
sub-values, each yielding one LIKE predicate on the field's filter column,
sub-values of a field joined by the global combination mode inside one
parenthesised group; each smart-search term yields one parenthesised
OR-group over the five descriptive fields (title, alternateTitles, series,
developer, publisher — the configured names at the fixed smart indices
2..6); the compiled statement joins all groups with that same global
mode. -/
theorem where_clause_structure (fi : FieldIterator) (q : URLQuery)
    (h2 : fi.Name.getD 2 "" = "title") (h3 : fi.Name.getD 3 "" = "alternateTitles")
    (h4 : fi.Name.getD 4 "" = "series") (h5 : fi.Name.getD 5 "" = "developer")
    (h6 : fi.Name.getD 6 "" = "publisher") :
    (whereParts fi q).1 =
      (if q.get "smartSearch" ≠ "" then
        (List.range (goSplit (q.get "smartSearch") ",").length).map (fun k =>
          "(" ++ String.intercalate " OR "
            (["title", "alternateTitles", "series", "developer", "publisher"].map
              (fun nm => likeFmt nm (1 + k))) ++ ")")
      else []) ++
      fieldGroupsSpec q (operatorOf q) (fieldTriples fi)
        (if q.get "smartSearch" ≠ ""
         then 1 + (goSplit (q.get "smartSearch") ",").length else 1) ∧
    (∀ (sl : Int) (sc : SearchCompiled), searchCompile fi sl q = some sc →
      sc.operator = operatorOf q ∧
      ∃ pre post, sc.dbQuery
        = pre ++ String.intercalate (operatorOf q) (whereParts fi q).1 ++ post) := by
  constructor
  · rw [whereParts_like]
    congr 1
    by_cases hs : q.get "smartSearch" ≠ ""
    · rw [if_pos hs, if_pos hs]
      refine List.map_congr_left ?_
      intro k _
      simp only [show smartIdxs = [2, 3, 4, 5, 6] from rfl, List.map_cons, List.map_nil]
      rw [h2, h3, h4, h5, h6]
    · rw [if_neg hs, if_neg hs]
  · intro sl sc hsc
    simp only [searchCompile] at hsc
    split at hsc
    · have := Option.some.inj hsc
      subst this
      exact ⟨rfl, _, _, rfl⟩
    · exact absurd hsc (by simp)

/-- A concrete request exercising both smart-search terms and a per-field
filter, for the C8 witness. -/
def qc8 : URLQuery where
  get := fun k =>
    if k = "smartSearch" then "mario,luigi" else if k = "library" then "arcade" else ""
  has := fun _ => false

/-- Closed instance of `where_clause_structure` at the spec registry. -/
theorem where_clause_structure_witness :
    (whereParts specFields qc8).1 =
      (if qc8.get "smartSearch" ≠ "" then
        (List.range (goSplit (qc8.get "smartSearch") ",").length).map (fun k =>
          "(" ++ String.intercalate " OR "
            (["title", "alternateTitles", "series", "developer", "publisher"].map
              (fun nm => likeFmt nm (1 + k))) ++ ")")
      else []) ++
      fieldGroupsSpec qc8 (operatorOf qc8) (fieldTriples specFields)
        (if qc8.get "smartSearch" ≠ ""
         then 1 + (goSplit (qc8.get "smartSearch") ",").length else 1) ∧
    (∀ (sl : Int) (sc : SearchCompiled), searchCompile specFields sl qc8 = some sc →
      sc.operator = operatorOf qc8 ∧
      ∃ pre post, sc.dbQuery
        = pre ++ String.intercalate (operatorOf qc8) (whereParts specFields qc8).1 ++ post) :=
  where_clause_structure specFields qc8 rfl rfl rfl rfl rfl

/-! ## Claim C4 (request values never reach the SQL text) -/

/-- The `outputQueries` accumulation of the per-field loop alone, as a
function of the starting list: a present field appends its `Query` entry
unless already contained. -/
def fieldQueriesSpec (q : URLQuery) :
    List (String × String × String) → List String → List String
  | [], oq => oq
  | (c, _, fq) :: rest, oq =>
    if q.get c ≠ "" then
      fieldQueriesSpec q rest (if oq.contains fq then oq else oq ++ [fq])
    else fieldQueriesSpec q rest oq

theorem smartLoop_oq (fi : FieldIterator) :
    ∀ (ts : List String) (acc : WhereAcc),
      (smartLoop fi ts acc).2.2.1 = acc.2.2.1 ++
        (List.replicate ts.length (smartIdxs.map (fun i => fi.Query.getD i ""))).flatten := by
  intro ts
  induction ts with
  | nil => intro acc; simp [smartLoop]
  | cons v rest ih =>
    intro acc
    obtain ⟨wl, wv, oq, p⟩ := acc
    rw [show smartLoop fi (v :: rest) (wl, wv, oq, p) = smartLoop fi rest
        (wl ++ ["(" ++ String.intercalate " OR "
            (smartIdxs.map (fun i => likeFmt (fi.Name.getD i "") p)) ++ ")"],
          wv ++ [escapeWrap v],
          oq ++ smartIdxs.map (fun i => fi.Query.getD i ""),
          p + 1) from rfl]
    rw [ih]
    simp [List.replicate_succ]

theorem fieldLoop_oq (q : URLQuery) (op : String) :
    ∀ (ts : List (String × String × String)) (acc : WhereAcc),
      (fieldLoop q op ts acc).2.2.1 = fieldQueriesSpec q ts acc.2.2.1 := by
  intro ts
  induction ts with
  | nil => intro acc; simp [fieldLoop, fieldQueriesSpec]
  | cons t rest ih =>
    intro acc
    obtain ⟨c, col, fq⟩ := t
    obtain ⟨wl, wv, oq, p⟩ := acc
    by_cases hc : q.get c ≠ ""
    · simp only [fieldLoop, if_pos hc, fieldQueriesSpec]
      rw [if_pos (by
        simp only [List.length_map, List.length_range, gt_iff_lt]
        exact List.length_pos.mpr (goSplit_ne_nil _ _))]
      rw [ih]
    · have hc' : q.get c = "" := not_not.mp hc
      simp [fieldLoop, fieldQueriesSpec, hc', ih]

/-- Two requests whose field parameters agree on presence and sub-value
counts produce the same per-field groups. -/
theorem fieldGroupsSpec_congr (q1 q2 : URLQuery) (op : String) :
    ∀ (ts : List (String × String × String)),
      (∀ t ∈ ts, ((q1.get t.1 = "") ↔ (q2.get t.1 = "")) ∧
        (goSplit (q1.get t.1) ",").length = (goSplit (q2.get t.1) ",").length) →
      ∀ p, fieldGroupsSpec q1 op ts p = fieldGroupsSpec q2 op ts p := by
  intro ts
  induction ts with
  | nil => intro _ p; rfl
  | cons t rest ih =>
    intro hF p
    obtain ⟨c, col, fq⟩ := t
    have ht := hF (c, col, fq) (by simp)
    have hrest : ∀ t ∈ rest, ((q1.get t.1 = "") ↔ (q2.get t.1 = "")) ∧
        (goSplit (q1.get t.1) ",").length = (goSplit (q2.get t.1) ",").length :=
      fun t ht' => hF t (by simp [ht'])
    by_cases hc : q1.get c = ""
    · have hc2 : q2.get c = "" := ht.1.mp hc
      simp [fieldGroupsSpec, hc, hc2, ih hrest]
    · have hc2 : q2.get c ≠ "" := fun h => hc (ht.1.mpr h)
      simp only [fieldGroupsSpec, if_pos (show q1.get c ≠ "" from hc), if_pos hc2]
      rw [ht.2, ih hrest]

theorem fieldQueriesSpec_congr (q1 q2 : URLQuery) :
    ∀ (ts : List (String × String × String)),
      (∀ t ∈ ts, (q1.get t.1 = "") ↔ (q2.get t.1 = "")) →
      ∀ oq, fieldQueriesSpec q1 ts oq = fieldQueriesSpec q2 ts oq := by
  intro ts
  induction ts with
  | nil => intro _ oq; rfl
  | cons t rest ih =>
    intro hF oq
    obtain ⟨c, col, fq⟩ := t
    have ht := hF (c, col, fq) (by simp)
    have hrest : ∀ t ∈ rest, (q1.get t.1 = "") ↔ (q2.get t.1 = "") :=
      fun t ht' => hF t (by simp [ht'])
    by_cases hc : q1.get c = ""
    · have hc2 : q2.get c = "" := ht.mp hc
      simp [fieldQueriesSpec, hc, hc2, ih hrest]
    · have hc2 : q2.get c ≠ "" := fun h => hc (ht.mpr h)
      simp only [fieldQueriesSpec, if_pos (show q1.get c ≠ "" from hc), if_pos hc2]
      rw [ih hrest]

theorem fieldSubValuesSpec_len_congr (q1 q2 : URLQuery) :
    ∀ (ts : List (String × String × String)),
      (∀ t ∈ ts, ((q1.get t.1 = "") ↔ (q2.get t.1 = "")) ∧
        (goSplit (q1.get t.1) ",").length = (goSplit (q2.get t.1) ",").length) →
      (fieldSubValuesSpec q1 ts).length = (fieldSubValuesSpec q2 ts).length := by
  intro ts
  induction ts with
  | nil => intro _; rfl
  | cons t rest ih =>
    intro hF
    obtain ⟨c, col, fq⟩ := t
    have ht := hF (c, col, fq) (by simp)
    have hrest : ∀ t ∈ rest, ((q1.get t.1 = "") ↔ (q2.get t.1 = "")) ∧
        (goSplit (q1.get t.1) ",").length = (goSplit (q2.get t.1) ",").length :=
      fun t ht' => hF t (by simp [ht'])
    by_cases hc : q1.get c = ""
    · have hc2 : q2.get c = "" := ht.1.mp hc
      simp [fieldSubValuesSpec, hc, hc2, ih hrest]
    · have hc2 : q2.get c ≠ "" := fun h => hc (ht.1.mpr h)
      simp only [fieldSubValuesSpec, if_pos (show q1.get c ≠ "" from hc), if_pos hc2,
        List.length_append]
      rw [ht.2, ih hrest]

/-- The final `outputQueries` of the WHERE-building passes: the smart
queries (one block of the five smart `Query` entries per term), then the
per-field appends. -/
theorem whereParts_oq (fi : FieldIterator) (q : URLQuery) :
    (whereParts fi q).2.2.1 = fieldQueriesSpec q (fieldTriples fi)
      (if q.get "smartSearch" ≠ "" then
        (List.replicate (goSplit (q.get "smartSearch") ",").length
          (smartIdxs.map (fun i => fi.Query.getD i ""))).flatten
       else []) := by
  show (fieldLoop q (operatorOf q) (fieldTriples fi)
      (if q.get "smartSearch" ≠ "" then
        smartLoop fi (goSplit (q.get "smartSearch") ",") ([], [], [], 1)
      else ([], [], [], 1))).2.2.1 = _
  by_cases hs : q.get "smartSearch" ≠ ""
  · rw [if_pos hs, if_pos hs, fieldLoop_oq, smartLoop_oq]
    simp
  · rw [if_neg hs, if_neg hs, fieldLoop_oq]

/-- C4: two requests with the same parameter keys, the same number of
comma-separated sub-values per filter parameter, and the same
`fields`/`any`/`limit` parameters — but arbitrary textual content in the
filter sub-values — compile to the same SQL statement string, the same
output-index bookkeeping and the same operator; they can differ only in
their (equal-length, ordered) bound-parameter lists.  Column and table
names therefore come only from the registry, never from request values. -/
theorem identical_sql_for_different_values (fi : FieldIterator) (sl : Int)
    (q1 q2 : URLQuery)
    (hAny : q1.get "any" = q2.get "any")
    (hS1 : (q1.get "smartSearch" = "") ↔ (q2.get "smartSearch" = ""))
    (hS2 : (goSplit (q1.get "smartSearch") ",").length
      = (goSplit (q2.get "smartSearch") ",").length)
    (hFld : ∀ c ∈ fi.Name, ((q1.get c = "") ↔ (q2.get c = "")) ∧
      (goSplit (q1.get c) ",").length = (goSplit (q2.get c) ",").length)
    (hFs1 : q1.has "fields" = q2.has "fields") (hFs2 : q1.get "fields" = q2.get "fields")
    (hL1 : q1.has "limit" = q2.has "limit") (hL2 : q1.get "limit" = q2.get "limit") :
    (searchCompile fi sl q1).map (fun sc =>
        (sc.dbQuery, sc.outputIndices, sc.outputTagsIndex, sc.outputTagsAppend, sc.operator))
      = (searchCompile fi sl q2).map (fun sc =>
        (sc.dbQuery, sc.outputIndices, sc.outputTagsIndex, sc.outputTagsAppend, sc.operator)) ∧
    (searchCompile fi sl q1).map (fun sc => sc.args.length)
      = (searchCompile fi sl q2).map (fun sc => sc.args.length) := by
  have hop : operatorOf q1 = operatorOf q2 := by
    unfold operatorOf
    rw [hAny]
  have hF' : ∀ t ∈ fieldTriples fi, ((q1.get t.1 = "") ↔ (q2.get t.1 = "")) ∧
      (goSplit (q1.get t.1) ",").length = (goSplit (q2.get t.1) ",").length := by
    intro t ht
    obtain ⟨c, cq⟩ := t
    exact hFld c (List.of_mem_zip ht).1
  have hwl : (whereParts fi q1).1 = (whereParts fi q2).1 := by
    rw [whereParts_like fi q1, whereParts_like fi q2]
    by_cases hsm : q1.get "smartSearch" = ""
    · have hsm2 : q2.get "smartSearch" = "" := hS1.mp hsm
      rw [if_neg (not_not_intro hsm), if_neg (not_not_intro hsm2),
        if_neg (not_not_intro hsm), if_neg (not_not_intro hsm2)]
      simp only [List.nil_append]
      rw [hop]
      exact fieldGroupsSpec_congr q1 q2 _ _ hF' 1
    · have hsm2 : q2.get "smartSearch" ≠ "" := fun h => hsm (hS1.mpr h)
      rw [if_pos (show q1.get "smartSearch" ≠ "" from hsm), if_pos hsm2,
        if_pos (show q1.get "smartSearch" ≠ "" from hsm), if_pos hsm2]
      rw [hS2, hop]
      congr 1
      exact fieldGroupsSpec_congr q1 q2 _ _ hF' _
  have hlen : (whereParts fi q1).2.1.length = (whereParts fi q2).2.1.length := by
    rw [whereParts_val fi q1, whereParts_val fi q2]
    simp only [List.length_map]
    unfold subValuesSpec
    by_cases hsm : q1.get "smartSearch" = ""
    · have hsm2 : q2.get "smartSearch" = "" := hS1.mp hsm
      rw [if_neg (not_not_intro hsm), if_neg (not_not_intro hsm2)]
      simp only [List.nil_append]
      exact fieldSubValuesSpec_len_congr q1 q2 _ hF'
    · have hsm2 : q2.get "smartSearch" ≠ "" := fun h => hsm (hS1.mpr h)
      rw [if_pos (show q1.get "smartSearch" ≠ "" from hsm), if_pos hsm2]
      simp only [List.length_append]
      rw [hS2, fieldSubValuesSpec_len_congr q1 q2 _ hF']
  have hoq : (whereParts fi q1).2.2.1 = (whereParts fi q2).2.2.1 := by
    rw [whereParts_oq fi q1, whereParts_oq fi q2]
    have hf1 : ∀ t ∈ fieldTriples fi, (q1.get t.1 = "") ↔ (q2.get t.1 = "") :=
      fun t ht => (hF' t ht).1
    by_cases hsm : q1.get "smartSearch" = ""
    · have hsm2 : q2.get "smartSearch" = "" := hS1.mp hsm
      rw [if_neg (not_not_intro hsm), if_neg (not_not_intro hsm2)]
      exact fieldQueriesSpec_congr q1 q2 _ hf1 []
    · have hsm2 : q2.get "smartSearch" ≠ "" := fun h => hsm (hS1.mpr h)
      rw [if_pos (show q1.get "smartSearch" ≠ "" from hsm), if_pos hsm2, hS2]
      exact fieldQueriesSpec_congr q1 q2 _ hf1 _
  have hro : resolveOutputIndices fi q1 = resolveOutputIndices fi q2 := by
    unfold resolveOutputIndices
    rw [hFs1, hFs2]
  have hdb : dbQueryOf fi sl q1 = dbQueryOf fi sl q2 := by
    simp only [dbQueryOf]
    rw [hwl, hoq, hro, hop, hL1, hL2]
  constructor
  · simp only [searchCompile]
    by_cases hpos : (whereParts fi q1).2.1.length > 0
    · rw [if_pos hpos, if_pos (hlen ▸ hpos)]
      simp only [Option.map_some', Option.some.injEq]
      rw [hdb, hro, hop]
    · rw [if_neg hpos, if_neg (hlen ▸ hpos)]
  · simp only [searchCompile]
    by_cases hpos : (whereParts fi q1).2.1.length > 0
    · rw [if_pos hpos, if_pos (hlen ▸ hpos)]
      simp only [Option.map_some', Option.some.injEq]
      exact hlen
    · rw [if_neg hpos, if_neg (hlen ▸ hpos)]

/-- Two concrete requests identical except for the text of the `title`
filter value, for the C4 witness. -/
def qc4a : URLQuery := ⟨fun k => if k = "title" then "abc" else "", fun _ => false⟩

/-- The second request of the C4 witness pair. -/
def qc4b : URLQuery := ⟨fun k => if k = "title" then "xyz" else "", fun _ => false⟩

/-- Closed instance of `identical_sql_for_different_values` at the spec
registry. -/
theorem identical_sql_for_different_values_witness :
    (searchCompile specFields 50 qc4a).map (fun sc =>
        (sc.dbQuery, sc.outputIndices, sc.outputTagsIndex, sc.outputTagsAppend, sc.operator))
      = (searchCompile specFields 50 qc4b).map (fun sc =>
        (sc.dbQuery, sc.outputIndices, sc.outputTagsIndex, sc.outputTagsAppend, sc.operator)) ∧
    (searchCompile specFields 50 qc4a).map (fun sc => sc.args.length)
      = (searchCompile specFields 50 qc4b).map (fun sc => sc.args.length) :=
  identical_sql_for_different_values specFields 50 qc4a qc4b rfl (by decide) (by decide)
    (by decide) rfl rfl rfl rfl

/-! ## Claim C6 (output field selection) -/

theorem goIndex_none_iff {α : Type} [DecidableEq α] :
    ∀ (l : List α) (x : α), goIndex l x = none ↔ x ∉ l := by
  intro l x
  induction l with
  | nil => simp [goIndex]
  | cons a rest ih =>
    by_cases ha : a = x
    · simp [goIndex, ha]
    · simp only [goIndex, if_neg ha, List.mem_cons]
      rw [Option.map_eq_none']
      constructor
      · intro h hx
        rcases hx with hx | hx
        · exact ha hx.symm
        · exact (ih.mp h) hx
      · intro h
        exact ih.mpr (fun hx => h (Or.inr hx))

theorem goIndex_lt {α : Type} [DecidableEq α] :
    ∀ (l : List α) (x : α) (j : Nat), goIndex l x = some j → j < l.length := by
  intro l
  induction l with
  | nil => intro x j h; simp [goIndex] at h
  | cons a rest ih =>
    intro x j h
    by_cases ha : a = x
    · simp only [goIndex, if_pos ha, Option.some.injEq] at h
      simp [← h]
    · simp only [goIndex, if_neg ha, Option.map_eq_some'] at h
      obtain ⟨j', hj', rfl⟩ := h
      have := ih x j' hj'
      simp only [List.length_cons]
      omega

theorem goIndex_getD {α : Type} [DecidableEq α] (d : α) :
    ∀ (l : List α) (x : α) (j : Nat), goIndex l x = some j → l.getD j d = x := by
  intro l
  induction l with
  | nil => intro x j h; simp [goIndex] at h
  | cons a rest ih =>
    intro x j h
    by_cases ha : a = x
    · simp only [goIndex, if_pos ha, Option.some.injEq] at h
      rw [← h]
      simpa using ha
    · simp only [goIndex, if_neg ha, Option.map_eq_some'] at h
      obtain ⟨j', hj', rfl⟩ := h
      simpa using ih x j' hj'

/-- The `fields` fold is the filterMap of resolvable names: unknown names
contribute nothing (and raise no error, the function being total). -/
theorem fields_foldl (fi : FieldIterator) :
    ∀ (l : List String) (acc : List Nat),
      l.foldl (fun acc c =>
          match goIndex fi.Name c with
          | some i => acc ++ [i]
          | none => acc) acc
        = acc ++ l.filterMap (fun c => goIndex fi.Name c) := by
  intro l
  induction l with
  | nil => intro acc; simp
  | cons c rest ih =>
    intro acc
    cases hgi : goIndex fi.Name c with
    | none => simp [List.foldl_cons, hgi, ih, List.filterMap_cons]
    | some i => simp [List.foldl_cons, hgi, ih, List.filterMap_cons]

/-- Zipping ignores the part of the right list beyond the left list's
length. -/
theorem zip_append_of_le {α β : Type} :
    ∀ (l : List α) (l1 l2 : List β), l.length ≤ l1.length →
      l.zip (l1 ++ l2) = l.zip l1 := by
  intro l
  induction l with
  | nil => intro l1 l2 _; simp
  | cons a l' ih =>
    intro l1 l2 h
    cases l1 with
    | nil => simp at h
    | cons b l1' =>
      simp only [List.cons_append, List.zip_cons_cons, List.cons.injEq]
      exact ⟨trivial, ih l1' l2 (by simpa using h)⟩

/-- The output selection of a request: the resolved output indices with
the mandatory tag column located or appended. -/
def outputSelection (fi : FieldIterator) (q : URLQuery) : List Nat × Nat × Bool :=
  appendTags fi (resolveOutputIndices fi q)

/-- Output-field resolution, in closed form: the resolvable requested
names when the parameter is present and at least one name resolved, else
every registry index. -/
theorem resolveOutputIndices_eq (fi : FieldIterator) (q : URLQuery) :
    resolveOutputIndices fi q =
      if q.has "fields" ∧
          (goSplit (q.get "fields") ",").filterMap (fun c => goIndex fi.Name c) ≠ []
      then (goSplit (q.get "fields") ",").filterMap (fun c => goIndex fi.Name c)
      else List.range fi.Name.length := by
  show (if (if q.has "fields" then
          (goSplit (q.get "fields") ",").foldl (fun acc c =>
            match goIndex fi.Name c with
            | some i => acc ++ [i]
            | none => acc) []
        else []).length = 0
      then List.range fi.Name.length
      else (if q.has "fields" then
          (goSplit (q.get "fields") ",").foldl (fun acc c =>
            match goIndex fi.Name c with
            | some i => acc ++ [i]
            | none => acc) []
        else [])) = _
  by_cases hh : q.has "fields"
  · rw [if_pos hh, fields_foldl, List.nil_append]
    by_cases hR : (goSplit (q.get "fields") ",").filterMap (fun c => goIndex fi.Name c) = []
    · simp [hR, hh]
    · rw [if_neg (by simp [List.length_eq_zero, hR]), if_pos ⟨hh, hR⟩]
  · rw [if_neg hh]
    simp [hh]

/-- Every resolved output index is a registry index. -/
theorem resolveOutputIndices_lt (fi : FieldIterator) (q : URLQuery) :
    ∀ j ∈ resolveOutputIndices fi q, j < fi.Name.length := by
  intro j hj
  rw [resolveOutputIndices_eq] at hj
  split at hj
  · obtain ⟨c, _, hc⟩ := List.mem_filterMap.mp hj
    exact goIndex_lt fi.Name c j hc
  · exact List.mem_range.mp hj

theorem getD_mem {α : Type} (l : List α) (n : Nat) (d : α) (h : n < l.length) :
    l.getD n d ∈ l := by
  rw [List.getD_eq_getElem?_getD, List.getElem?_eq_getElem h]
  simp

/-- C6: an explicit `fields` parameter resolves each name against the
registry, silently dropping unknown names; an empty resolution (absent
parameter or all names unknown) defaults to every registered field in
registry order; the compiled output indices are the resolved list with the
tags column appended exactly when it is not already there; the emitted
JSON object's keys are the resolved output names in order (the
auto-appended tags column being truncated away by the strip before
serialisation); and an auto-appended tags column never contributes a
`tags` key. -/
theorem output_field_selection (fi : FieldIterator) (q : URLQuery) (entry : List String)
    (hlen : entry.length = (outputSelection fi q).1.length) :
    (resolveOutputIndices fi q =
      if q.has "fields" ∧
          (goSplit (q.get "fields") ",").filterMap (fun c => goIndex fi.Name c) ≠ []
      then (goSplit (q.get "fields") ",").filterMap (fun c => goIndex fi.Name c)
      else List.range fi.Name.length) ∧
    (∀ (sl : Int) (sc : SearchCompiled), searchCompile fi sl q = some sc →
      sc.outputIndices = (outputSelection fi q).1 ∧
      sc.outputTagsAppend = (outputSelection fi q).2.2) ∧
    ((outputSelection fi q).1 = resolveOutputIndices fi q ++
      (if (outputSelection fi q).2.2 then [tagsIndex fi] else [])) ∧
    ((outputSelection fi q).2.2 = true ↔
      goIndex (resolveOutputIndices fi q) (tagsIndex fi) = none) ∧
    ((outputSelection fi q).2.2 = true →
      jsonObjectOf fi (outputSelection fi q).1 entry.dropLast =
        "\x7b" ++ String.intercalate ","
          ((entry.dropLast.zip (resolveOutputIndices fi q)).map
            (fun p => "\"" ++ fi.Name.getD p.2 "" ++ "\":" ++ typedRender fi p.2 p.1))
          ++ "\x7d") ∧
    ((outputSelection fi q).2.2 = false →
      jsonObjectOf fi (outputSelection fi q).1 entry =
        "\x7b" ++ String.intercalate ","
          ((entry.zip (resolveOutputIndices fi q)).map
            (fun p => "\"" ++ fi.Name.getD p.2 "" ++ "\":" ++ typedRender fi p.2 p.1))
          ++ "\x7d") ∧
    ((outputSelection fi q).2.2 = true →
      "tags" ∉ (resolveOutputIndices fi q).map (fun i => fi.Name.getD i "")) := by
  have hlink : ∀ (sl : Int) (sc : SearchCompiled), searchCompile fi sl q = some sc →
      sc.outputIndices = (outputSelection fi q).1 ∧
      sc.outputTagsAppend = (outputSelection fi q).2.2 := by
    intro sl sc hsc
    simp only [searchCompile] at hsc
    split at hsc
    · have := Option.some.inj hsc
      subst this
      exact ⟨rfl, rfl⟩
    · exact absurd hsc (by simp)
  have hsel : (outputSelection fi q
        = (resolveOutputIndices fi q ++ [tagsIndex fi], (resolveOutputIndices fi q).length, true)
        ∧ goIndex (resolveOutputIndices fi q) (tagsIndex fi) = none) ∨
      (∃ j, outputSelection fi q = (resolveOutputIndices fi q, j, false)
        ∧ goIndex (resolveOutputIndices fi q) (tagsIndex fi) = some j) := by
    cases hgi : goIndex (resolveOutputIndices fi q) (tagsIndex fi) with
    | none =>
      left
      constructor
      · unfold outputSelection appendTags
        rw [hgi]
      · rfl
    | some j =>
      right
      refine ⟨j, ?_, rfl⟩
      unfold outputSelection appendTags
      rw [hgi]
  rcases hsel with ⟨hs, hgi⟩ | ⟨j, hs, hgi⟩
  · have hdl : entry.dropLast.length ≤ (resolveOutputIndices fi q).length := by
      rw [hs] at hlen
      simp only [List.length_append, List.length_cons, List.length_nil] at hlen
      simp [List.length_dropLast, hlen]
    refine ⟨resolveOutputIndices_eq fi q, hlink, ?_, ?_, ?_, ?_, ?_⟩
    · rw [hs]; simp
    · rw [hs]; simp [hgi]
    · intro _
      rw [hs]
      simp only [jsonObjectOf]
      rw [zip_append_of_le _ _ _ hdl]
    · intro hfalse
      rw [hs] at hfalse
      simp at hfalse
    · intro _ hmem
      obtain ⟨j', hj'R, hgetD⟩ := List.mem_map.mp hmem
      have hnotin : tagsIndex fi ∉ resolveOutputIndices fi q := (goIndex_none_iff _ _).mp hgi
      have he := resolveOutputIndices_eq fi q
      by_cases hcond : q.has "fields" ∧
          (goSplit (q.get "fields") ",").filterMap (fun c => goIndex fi.Name c) ≠ []
      · rw [he, if_pos hcond] at hj'R
        obtain ⟨c, _, hc⟩ := List.mem_filterMap.mp hj'R
        have hcn : fi.Name.getD j' "" = c := goIndex_getD "" fi.Name c j' hc
        rw [hcn] at hgetD
        subst hgetD
        have ht : tagsIndex fi = j' := by
          unfold tagsIndex
          rw [hc]
          rfl
        apply hnotin
        rw [ht, he, if_pos hcond]
        exact hj'R
      · rw [he, if_neg hcond] at hj'R
        have hj'lt : j' < fi.Name.length := List.mem_range.mp hj'R
        have htagsmem : "tags" ∈ fi.Name := by
          rw [← hgetD]
          exact getD_mem fi.Name j' "" hj'lt
        cases hgt : goIndex fi.Name "tags" with
        | none => exact absurd htagsmem ((goIndex_none_iff _ _).mp hgt)
        | some t' =>
          have htlt : t' < fi.Name.length := goIndex_lt _ _ _ hgt
          have ht : tagsIndex fi = t' := by
            unfold tagsIndex
            rw [hgt]
            rfl
          apply hnotin
          rw [ht, he, if_neg hcond]
          exact List.mem_range.mpr htlt
  · refine ⟨resolveOutputIndices_eq fi q, hlink, ?_, ?_, ?_, ?_, ?_⟩
    · rw [hs]; simp
    · rw [hs]; simp [hgi]
    · intro htrue
      rw [hs] at htrue
      simp at htrue
    · intro _
      rw [hs]
      rfl
    · intro htrue
      rw [hs] at htrue
      simp at htrue

/-- A concrete request selecting one known and one unknown output field,
for the C6 witness. -/
def qc6 : URLQuery :=
  ⟨fun k => if k = "fields" then "title,bogus" else if k = "title" then "x" else "",
   fun k => k = "fields"⟩

/-- Closed instance of `output_field_selection` at the spec registry: the
unknown name `bogus` is dropped, `title` resolves, the tags column is
auto-appended and stripped. -/
theorem output_field_selection_witness :
    (resolveOutputIndices specFields qc6 =
      if qc6.has "fields" ∧
          (goSplit (qc6.get "fields") ",").filterMap (fun c => goIndex specFields.Name c) ≠ []
      then (goSplit (qc6.get "fields") ",").filterMap (fun c => goIndex specFields.Name c)
      else List.range specFields.Name.length) ∧
    (∀ (sl : Int) (sc : SearchCompiled), searchCompile specFields sl qc6 = some sc →
      sc.outputIndices = (outputSelection specFields qc6).1 ∧
      sc.outputTagsAppend = (outputSelection specFields qc6).2.2) ∧
    ((outputSelection specFields qc6).1 = resolveOutputIndices specFields qc6 ++
      (if (outputSelection specFields qc6).2.2 then [tagsIndex specFields] else [])) ∧
    ((outputSelection specFields qc6).2.2 = true ↔
      goIndex (resolveOutputIndices specFields qc6) (tagsIndex specFields) = none) ∧
    ((outputSelection specFields qc6).2.2 = true →
      jsonObjectOf specFields (outputSelection specFields qc6).1 (["T", "A; B"] : List String).dropLast =
        "\x7b" ++ String.intercalate ","
          (((["T", "A; B"] : List String).dropLast.zip (resolveOutputIndices specFields qc6)).map
            (fun p => "\"" ++ specFields.Name.getD p.2 "" ++ "\":" ++ typedRender specFields p.2 p.1))
          ++ "\x7d") ∧
    ((outputSelection specFields qc6).2.2 = false →
      jsonObjectOf specFields (outputSelection specFields qc6).1 (["T", "A; B"] : List String) =
        "\x7b" ++ String.intercalate ","
          (((["T", "A; B"] : List String).zip (resolveOutputIndices specFields qc6)).map
            (fun p => "\"" ++ specFields.Name.getD p.2 "" ++ "\":" ++ typedRender specFields p.2 p.1))
          ++ "\x7d") ∧
    ((outputSelection specFields qc6).2.2 = true →
      "tags" ∉ (resolveOutputIndices specFields qc6).map (fun i => specFields.Name.getD i "")) :=
  output_field_selection specFields qc6 ["T", "A; B"] (by decide)

end FPDB
